import Mathlib

/-!
A verification development for the YGM distributed-communication library.

The sections below give a shallow embedding of the pieces of the code the
stated properties concern:

* `ygm.container.detail.array_impl` (distributed array: `resize`, `owner`,
  `local_index`, `async_set`, `async_visit`,
  `async_binary_op_update_value`, `async_unary_op_update_value`);
* `ygm.container.detail.hash_partitioner` (`owner`);
* `ygm.io.csv_parser` (`for_all`, `read_headers`);
* the communicator core (`ygm::comm`), whose implementation file is not
  part of the sources at hand; the communicator is modelled from the
  specification, as flagged on each such definition.

Machine integers are embedded as `Nat` with explicit `% 2 ^ w` where the
C++ arithmetic wraps.  Assertion failures (`ASSERT_RELEASE`) are embedded
as `Option.none` results.
-/

namespace YGM

/-! ### Distributed array (`ygm::container::detail::array_impl`)

Source: `array_impl<Value, Index>` — `resize` splits a global array of
`n` elements over `p` ranks with block size
`m_block_size = size / p + (size % p > 0)`; every rank except the last
resizes its local vector to `m_block_size`, the last to
`m_global_size % m_block_size` (or `m_block_size` when that remainder is
zero).  `owner(i) = i / m_block_size`, `local_index(i) = i % m_block_size`.
The distributed collection of per-rank local vectors is embedded as a
rank-indexed function. -/

/-- Block size computed by `array_impl::resize`:
`size / m_comm.size() + (size % m_comm.size() > 0)`. -/
def block_size (p n : Nat) : Nat :=
  n / p + (if n % p > 0 then 1 else 0)

/-- Length of the local vector `array_impl::resize` gives rank `r`:
`m_block_size` for every rank but the last; for the last rank
`m_global_size % m_block_size`, replaced by `m_block_size` when that
remainder is zero. -/
def local_len (p n b : Nat) (r : Nat) : Nat :=
  if r ≠ p - 1 then b
  else if n % b = 0 then b else n % b

/-- State of an `array_impl` distributed over `p` ranks: the global size,
the block size, and each rank's local vector. -/
structure ArrayImpl (α : Type) where
  comm_size   : Nat
  global_size : Nat
  m_block_size : Nat
  local_vecs  : Nat → List α

namespace ArrayImpl

/-- Source `array_impl::resize(size, fill_value)`: records the global size, the
block size, and resizes every rank's local vector as the source does. -/
def resize (p n : Nat) (fill : α) : ArrayImpl α :=
  let b := block_size p n
  { comm_size := p
    global_size := n
    m_block_size := b
    local_vecs := fun r => List.replicate (local_len p n b r) fill }

/-- Source `array_impl::owner`: `index / m_block_size`. -/
def owner (a : ArrayImpl α) (index : Nat) : Nat :=
  index / a.m_block_size

/-- Source `array_impl::local_index`: `index % m_block_size`. -/
def local_index (a : ArrayImpl α) (index : Nat) : Nat :=
  index % a.m_block_size

/-- Source `array_impl::async_set`: asserts `index < m_global_size`, then sends a
putter to `owner(index)`; the putter asserts
`local_index(index) < m_local_vec.size()` at the destination rank and
stores the value.  `none` embeds an `ASSERT_RELEASE` failure. -/
def async_set (a : ArrayImpl α) (index : Nat) (value : α) :
    Option (ArrayImpl α) :=
  if index < a.global_size then
    let dest := a.owner index
    let l_index := a.local_index index
    let vec := a.local_vecs dest
    if l_index < vec.length then
      some { a with
              local_vecs := fun r =>
                if r = dest then vec.set l_index value else a.local_vecs r }
    else none
  else none

/-- Source `array_impl::async_visit`: asserts `index < m_global_size`, then sends
a visit wrapper to `owner(index)`; the wrapper asserts
`local_index(index) < m_local_vec.size()` and applies the visitor to the
global index and a reference to the local value.  The visitor is embedded
by the value it leaves in the visited slot. -/
def async_visit (a : ArrayImpl α) (index : Nat) (visitor : Nat → α → α) :
    Option (ArrayImpl α) :=
  if index < a.global_size then
    let dest := a.owner index
    let l_index := a.local_index index
    let vec := a.local_vecs dest
    if h : l_index < vec.length then
      some { a with
              local_vecs := fun r =>
                if r = dest then
                  vec.set l_index (visitor index (vec.get ⟨l_index, h⟩))
                else a.local_vecs r }
    else none
  else none

/-- Source `array_impl::async_binary_op_update_value`: asserts
`index < m_global_size`, then calls `async_visit` with an updater that
replaces the value `v` by `(*binary_op)(v, new_value)`. -/
def async_binary_op_update_value (a : ArrayImpl α) (index : Nat)
    (value : α) (b : α → α → α) : Option (ArrayImpl α) :=
  if index < a.global_size then
    a.async_visit index (fun _i v => b v value)
  else none

/-- Source `array_impl::async_unary_op_update_value`: asserts
`index < m_global_size`, then calls `async_visit` with an updater that
replaces the value `v` by `(*u)(v)`. -/
def async_unary_op_update_value (a : ArrayImpl α) (index : Nat)
    (u : α → α) : Option (ArrayImpl α) :=
  if index < a.global_size then
    a.async_visit index (fun _i v => u v)
  else none

end ArrayImpl

/-! ### Hash partitioner (`ygm::container::detail::hash_partitioner`)

Source: `owner(key)` returns `(m_hash(key) * 2654435769L >> 32) % m_comm_size`.
`m_hash` returns `size_t` (64-bit unsigned); the multiplication is
performed in 64-bit unsigned arithmetic, so it wraps modulo `2 ^ 64`; the
shift keeps the high 32 bits; the final `%` is by the communicator size. -/

/-- Source `hash_partitioner::owner` on the hash value of the key:
`(hash * 2654435769 >> 32) % comm_size`, the product taken modulo
`2 ^ 64` as 64-bit unsigned arithmetic does. -/
def hash_partitioner_owner (hash_val : Nat) (comm_size : Nat) : Nat :=
  (hash_val * 2654435769) % 2 ^ 64 / 2 ^ 32 % comm_size

/-! ### CSV parser (`ygm::io::csv_parser`)

Source: `csv_parser::for_all(fn)` builds `handle_line_lambda`, which
parses a line into a field vector and calls `fn` on it exactly when the
vector is non-empty.  With headers read it runs
`m_lp.for_all(handle_line_lambda, true)` (skipping the first line);
otherwise `m_lp.for_all(handle_line_lambda)`.  It then runs a second
`m_lp.for_all` whose lambda has an empty body.  `read_headers` parses the
first line into the header map and sets `m_has_headers`.

The underlying `line_parser` is not among the sources at hand.  Modelled
from the spec: `line_parser::for_all` presents every line of the input
file set to the handler in order, and with its second argument `true`
skips the first line (the header line returned by
`line_parser::read_first`).  The handler is embedded by the list of
argument vectors it passes to the user function `fn`. -/

/-- Modelled from the spec: `line_parser::for_all` — runs the handler on
every input line in order (skipping the first line when `skip_first`),
collecting the calls to `fn` that the handler makes. -/
def line_parser_for_all (handler : String → List (List String))
    (lines : List String) (skip_first : Bool) : List (List String) :=
  ((if skip_first then lines.drop 1 else lines).map handler).flatten

/-- Source `csv_parser::for_all` builds `handle_line_lambda`: parses the line and
calls `fn` on the field vector exactly when `vfields.size() > 0`. -/
def handle_line_lambda (parse_csv_line : String → List String)
    (line : String) : List (List String) :=
  let vfields := parse_csv_line line
  if vfields.length > 0 then [vfields] else []

/-- Source `csv_parser::for_all`: the first `line_parser::for_all` pass runs
`handle_line_lambda` (skipping the header line when `m_has_headers`); the
trailing second pass runs a lambda with an empty body, so it calls `fn`
on nothing.  The result is the list of field vectors passed to `fn`, in
order. -/
def csv_for_all (parse_csv_line : String → List String)
    (m_has_headers : Bool) (lines : List String) : List (List String) :=
  (if m_has_headers then
    line_parser_for_all (handle_line_lambda parse_csv_line) lines true
  else
    line_parser_for_all (handle_line_lambda parse_csv_line) lines false)
  ++ line_parser_for_all (fun _line => []) lines false

/-! ### Communicator core (`ygm::comm`)

The sources at hand hold only the class declaration of `ygm::comm`
(member signatures, the counters `m_send_count` / `m_recv_count`, the
callback deque `m_pre_barrier_callbacks`, the id-type of `m_lambda_map`);
the implementation file `ygm/detail/comm.ipp` is not among them.  The
communicator's behaviour is therefore modelled from the spec, as flagged
on each definition. -/

/-- Modelled from the spec (implementation `comm.ipp` missing): one
remote invocation — an active-message record with a final destination
rank and the further invocations its handler issues while executing
there (user work is finite, so the spawn tree is finite). -/
inductive Invocation : Type where
  | node (dest : Nat) (spawns : List Invocation) : Invocation

mutual

/-- Number of remote invocations in one spawn tree (the root and
everything it transitively spawns). -/
def invSize : Invocation → Nat
  | .node _ spawns => 1 + invListSize spawns

/-- Number of remote invocations in a list of spawn trees. -/
def invListSize : List Invocation → Nat
  | [] => 0
  | i :: is => invSize i + invListSize is

end

mutual

/-- Destination ranks of every invocation in one spawn tree, root first. -/
def invDests : Invocation → List Nat
  | .node d spawns => d :: invListDests spawns

/-- Destination ranks of every invocation in a list of spawn trees. -/
def invListDests : List Invocation → List Nat
  | [] => []
  | i :: is => invDests i ++ invListDests is

end

mutual

/-- Every destination rank in the spawn tree is a valid rank below `p`
(the spec's assert-and-abort rules out-of-range destinations). -/
def invWF (p : Nat) : Invocation → Bool
  | .node d spawns => decide (d < p) && invListWF p spawns

/-- Conjunction of `invWF` over every tree in the list. -/
def invListWF (p : Nat) : List Invocation → Bool
  | [] => true
  | i :: is => invWF p i && invListWF p is

end

/-- Bump a per-rank counter at rank `r` by `k`. -/
def bump (f : Nat → Nat) (r k : Nat) : Nat → Nat :=
  fun x => if x = r then f x + k else f x

/-- Modelled from the spec (implementation `comm.ipp` missing): the
communicator state the stated properties observe — the rank count, the
per-rank cumulative remote-invocation counters `m_send_count` and
`m_recv_count`, the in-flight invocations (appended but not yet
dispatched at their final destination), and the registered pre-barrier
callbacks (`m_pre_barrier_callbacks`), each recorded as the rank it runs
on together with the invocations it issues when invoked. -/
structure CommState where
  comm_size : Nat
  m_send_count : Nat → Nat
  m_recv_count : Nat → Nat
  pending : List Invocation
  m_pre_barrier_callbacks : List (Nat × List Invocation)

namespace CommState

/-- Modelled from the spec: `comm::async(dest, fn, args...)` issued from
rank `src` — packs one record, increments the sender's cumulative sent
counter, and puts the record in flight. -/
def async (st : CommState) (src : Nat) (inv : Invocation) : CommState :=
  { st with
      m_send_count := bump st.m_send_count src 1
      pending := st.pending ++ [inv] }

/-- Modelled from the spec: `comm::async_mcast(dests, fn, args...)`
issued from rank `src` — one `async` per destination in the list, in
order; `mk_inv d` is the record for destination `d`. -/
def async_mcast (st : CommState) (src : Nat) (dests : List Nat)
    (mk_inv : Nat → Invocation) : CommState :=
  dests.foldl (fun s d => s.async src (mk_inv d)) st

/-- Modelled from the spec: `comm::register_pre_barrier_callback` —
appends the callback to the `m_pre_barrier_callbacks` deque. -/
def register_pre_barrier_callback (st : CommState)
    (cb : Nat × List Invocation) : CommState :=
  { st with m_pre_barrier_callbacks := st.m_pre_barrier_callbacks ++ [cb] }

end CommState

/-- One observable event of a `barrier` call: a pre-barrier callback ran,
or an invocation was dispatched (executed) at its destination rank. -/
inductive BarrierEvent : Type where
  | callbackRun (cb : Nat × List Invocation) : BarrierEvent
  | dispatched (dest : Nat) : BarrierEvent

/-- Whether a barrier event is a pre-barrier callback invocation. -/
def BarrierEvent.isCallback : BarrierEvent → Bool
  | .callbackRun _ => true
  | .dispatched _ => false

/-- Modelled from the spec: the barrier first invokes every pre-barrier
callback in registration order; each callback's `async` calls bump the
sent counter at the rank the callback runs on and put its records in
flight.  Returns the updated sent counter, the in-flight list, and the
event log of callback invocations. -/
def runCallbacks : List (Nat × List Invocation) → (Nat → Nat) →
    List Invocation → (Nat → Nat) × List Invocation × List BarrierEvent
  | [], sc, pend => (sc, pend, [])
  | (r, sends) :: rest, sc, pend =>
    let sc' := bump sc r sends.length
    let out := runCallbacks rest sc' (pend ++ sends)
    (out.1, out.2.1, .callbackRun (r, sends) :: out.2.2)

/-- Modelled from the spec: the quiescence loop of the full barrier —
while records are in flight, the progress engine delivers one, its
handler executes at the final destination (incrementing that rank's
received counter), and the handler's own `async` calls (incrementing the
executing rank's sent counter) put the spawned records in flight; the
loop exits only when nothing is in flight.  Returns the final counters
and the log of dispatch events. -/
def drain : List Invocation → (Nat → Nat) → (Nat → Nat) →
    (Nat → Nat) × (Nat → Nat) × List BarrierEvent
  | [], sc, rc => (sc, rc, [])
  | .node d spawns :: rest, sc, rc =>
    let sc' := bump sc d spawns.length
    let rc' := bump rc d 1
    let out := drain (spawns ++ rest) sc' rc'
    (out.1, out.2.1, .dispatched d :: out.2.2)
termination_by pend _ _ => invListSize pend
decreasing_by
  have h : ∀ (xs ys : List Invocation),
      invListSize (xs ++ ys) = invListSize xs + invListSize ys := by
    intro xs ys
    induction xs with
    | nil => simp [invListSize]
    | cons x xs ih =>
      simp only [List.cons_append, invListSize, List.append_eq, ih]; omega
  simp only [invListSize, invSize, h]
  omega

/-- Modelled from the spec: `comm::barrier()` — invokes every
pre-barrier callback in registration order, then runs the quiescence
loop until no remote invocation initiated before entry (nor anything
transitively spawned) remains in flight.  Returns the final state and
the event log. -/
def CommState.barrier (st : CommState) : CommState × List BarrierEvent :=
  let cbout := runCallbacks st.m_pre_barrier_callbacks st.m_send_count st.pending
  let dout := drain cbout.2.1 cbout.1 st.m_recv_count
  ({ st with
      m_send_count := dout.1
      m_recv_count := dout.2.1
      pending := []
      m_pre_barrier_callbacks := st.m_pre_barrier_callbacks },
   cbout.2.2 ++ dout.2.2)

/-! ### Lambda registry (`ygm::detail::lambda_map`)

The class declaration fixes the registry's id type: `m_lambda_map` is a
`detail::lambda_map<void (*)(comm*, cereal::YGMInputArchive*), uint16_t>`,
so every identifier stored and transmitted on the wire is a `uint16_t`.
The registry's behaviour is modelled from the spec: `id_of(F)` is
memoized — the first call registers `F` and assigns the next id; storing
that counter into the 16-bit id type wraps it modulo `2 ^ 16`. -/

/-- Position of a token in the registration list, if present. -/
def findToken (tok : Nat) : List Nat → Option Nat
  | [] => none
  | t :: ts =>
    if t = tok then some 0 else (findToken tok ts).map (· + 1)

/-- Modelled from the spec (implementation of `lambda_map` missing): the
registry state — the identity tokens of the invocables registered so
far, in registration order. -/
structure LambdaMap where
  registered : List Nat

/-- Modelled from the spec: `id_of(F)` — memoized; the first call
registers `F` and assigns the next id.  The id is stored into the
registry's `uint16_t` id type, which wraps modulo `2 ^ 16`. -/
def LambdaMap.id_of (m : LambdaMap) (tok : Nat) : LambdaMap × Nat :=
  match findToken tok m.registered with
  | some i => (m, i % 2 ^ 16)
  | none => ({ registered := m.registered ++ [tok] },
             m.registered.length % 2 ^ 16)

/-! ### Serialization (`cereal::YGMOutputArchive` / `YGMInputArchive`)

The archives are not among the sources at hand.  Modelled from the spec
(§4.4 Serialization): values of the supported argument types are packed
to a byte buffer and unpacked from it; scalar fields are copied as their
fixed-width bit patterns (64-bit words), lengths are written as the
64-bit `size_t`, strings and character arrays as raw bytes, pairs and
user-defined structures field by field, containers as a length followed
by the elements.  Bytes are `Nat` values below 256. -/

/-- A value of a supported argument type: integers of common widths and
floating-point values by their (at most 64-bit) bit patterns, booleans,
fixed-size character arrays and variable-length strings as byte lists,
pairs/tuples/user-defined structures as pairs, and standard sequence and
map-like containers as element lists. -/
inductive SerialValue : Type where
  | sWord (bits : Nat) : SerialValue
  | sBool (b : Bool) : SerialValue
  | sFloat (bits : Nat) : SerialValue
  | sChars (cs : List Nat) : SerialValue
  | sPair (a b : SerialValue) : SerialValue
  | sSeq (xs : List SerialValue) : SerialValue

/-- Little-endian base-256 digits of `n`, `k` bytes wide. -/
def encBytes : Nat → Nat → List Nat
  | 0, _ => []
  | k + 1, n => n % 256 :: encBytes k (n / 256)

/-- Read `k` little-endian base-256 digits; returns the value and the
rest of the input. -/
def decBytes : Nat → List Nat → Option (Nat × List Nat)
  | 0, bytes => some (0, bytes)
  | _ + 1, [] => none
  | k + 1, b :: rest =>
    (decBytes k rest).map (fun out => (b + 256 * out.1, out.2))

/-- Take `n` raw bytes off the input; returns them and the rest. -/
def readRaw : Nat → List Nat → Option (List Nat × List Nat)
  | 0, bytes => some ([], bytes)
  | _ + 1, [] => none
  | n + 1, b :: rest =>
    (readRaw n rest).map (fun out => (b :: out.1, out.2))

mutual

/-- Modelled from the spec: pack a supported value to bytes — a tag,
then the fixed-width scalar bit pattern, the boolean byte, the
length-prefixed raw bytes, the two packed halves, or the
length-prefixed packed elements. -/
def pack : SerialValue → List Nat
  | .sWord n => 0 :: encBytes 8 n
  | .sBool b => 1 :: [if b then 1 else 0]
  | .sFloat n => 2 :: encBytes 8 n
  | .sChars cs => 3 :: (encBytes 8 cs.length ++ cs)
  | .sPair a b => 4 :: (pack a ++ pack b)
  | .sSeq xs => 5 :: (encBytes 8 xs.length ++ packList xs)

/-- Pack a list of values back to back. -/
def packList : List SerialValue → List Nat
  | [] => []
  | v :: vs => pack v ++ packList vs

end

mutual

/-- Modelled from the spec: unpack one value from the front of the
input, with a step budget `fuel`; returns the value and the rest of the
input.  `none` embeds a malformed buffer (or exhausted budget). -/
def unpackF : Nat → List Nat → Option (SerialValue × List Nat)
  | 0, _ => none
  | fuel + 1, bytes =>
    match bytes with
    | 0 :: rest =>
      (decBytes 8 rest).map (fun out => (.sWord out.1, out.2))
    | 1 :: 0 :: rest => some (.sBool false, rest)
    | 1 :: 1 :: rest => some (.sBool true, rest)
    | 2 :: rest =>
      (decBytes 8 rest).map (fun out => (.sFloat out.1, out.2))
    | 3 :: rest =>
      match decBytes 8 rest with
      | some (n, r1) =>
        (readRaw n r1).map (fun out => (.sChars out.1, out.2))
      | none => none
    | 4 :: rest =>
      match unpackF fuel rest with
      | some (a, r1) =>
        match unpackF fuel r1 with
        | some (b, r2) => some (.sPair a b, r2)
        | none => none
      | none => none
    | 5 :: rest =>
      match decBytes 8 rest with
      | some (n, r1) =>
        match unpackListF fuel n r1 with
        | some (xs, r2) => some (.sSeq xs, r2)
        | none => none
      | none => none
    | _ => none

/-- Unpack `n` consecutive values, with a step budget `fuel`. -/
def unpackListF : Nat → Nat → List Nat → Option (List SerialValue × List Nat)
  | _, 0, bytes => some ([], bytes)
  | 0, _ + 1, _ => none
  | fuel + 1, n + 1, bytes =>
    match unpackF fuel bytes with
    | some (v, r1) =>
      match unpackListF fuel n r1 with
      | some (vs, r2) => some (v :: vs, r2)
      | none => none
    | none => none

end

/-- Unpack one value from a byte buffer; the step budget is the buffer
length, which suffices for any packed value. -/
def unpack (bytes : List Nat) : Option (SerialValue × List Nat) :=
  unpackF bytes.length bytes

mutual

/-- A supported value that fits the wire format: scalar bit patterns fit
64 bits, bytes are below 256, and every length fits the 64-bit
`size_t`. -/
def svWF : SerialValue → Bool
  | .sWord n => decide (n < 2 ^ 64)
  | .sBool _ => true
  | .sFloat n => decide (n < 2 ^ 64)
  | .sChars cs => decide (cs.length < 2 ^ 64) && cs.all (· < 256)
  | .sPair a b => svWF a && svWF b
  | .sSeq xs => decide (xs.length < 2 ^ 64) && svListWF xs

/-- Conjunction of `svWF` over every element. -/
def svListWF : List SerialValue → Bool
  | [] => true
  | v :: vs => svWF v && svListWF vs

end

mutual

/-- Number of constructors in a supported value (drives the unpacking
step budget). -/
def svSize : SerialValue → Nat
  | .sWord _ => 1
  | .sBool _ => 1
  | .sFloat _ => 1
  | .sChars _ => 1
  | .sPair a b => 1 + svSize a + svSize b
  | .sSeq xs => 1 + svListSize xs

/-- Total `svSize` over a list, one extra step per element. -/
def svListSize : List SerialValue → Nat
  | [] => 0
  | v :: vs => 1 + svSize v + svListSize vs

end

/-! ## Theorems -/

/-! ### Block distribution arithmetic (shared helpers) -/

theorem block_size_pos {p n : Nat} (hp : 0 < p) (hn : 0 < n) :
    0 < block_size p n := by
  unfold block_size
  by_cases h : n % p > 0
  · rw [if_pos h]
    exact Nat.succ_pos _
  · have h0 : n % p = 0 := by omega
    rw [if_neg h, Nat.add_zero]
    exact Nat.div_pos (Nat.le_of_dvd hn (Nat.dvd_of_mod_eq_zero h0)) hp

theorem le_mul_block_size {p n : Nat} (hp : 0 < p) :
    n ≤ p * block_size p n := by
  have hdm := Nat.div_add_mod n p
  unfold block_size
  by_cases h : n % p > 0
  · rw [if_pos h]
    have hlt : n % p < p := Nat.mod_lt n hp
    calc n = p * (n / p) + n % p := hdm.symm
      _ ≤ p * (n / p) + p := Nat.add_le_add_left (Nat.le_of_lt hlt) _
      _ = p * (n / p + 1) := by rw [Nat.mul_add, Nat.mul_one]
  · have h0 : n % p = 0 := by omega
    rw [if_neg h, Nat.add_zero]
    omega

theorem owner_lt {p n i : Nat} (hp : 0 < p) (hn : 0 < n) (hi : i < n) :
    i / block_size p n < p := by
  have hb := block_size_pos hp hn
  rw [Nat.div_lt_iff_lt_mul hb]
  calc i < n := hi
    _ ≤ p * block_size p n := le_mul_block_size hp

theorem local_index_lt {p n i : Nat} (hp : 0 < p) (hn : 0 < n) (hi : i < n) :
    i % block_size p n < local_len p n (block_size p n) (i / block_size p n) := by
  set b := block_size p n with hbdef
  have hb : 0 < b := block_size_pos hp hn
  unfold local_len
  by_cases hr : i / b ≠ p - 1
  · rw [if_pos hr]
    exact Nat.mod_lt i hb
  · rw [if_neg hr]
    push_neg at hr
    by_cases hz : n % b = 0
    · rw [if_pos hz]
      exact Nat.mod_lt i hb
    · rw [if_neg hz]
      have hnpb : n ≤ p * b := le_mul_block_size hp
      have hnlt : n < p * b := by
        rcases Nat.lt_or_ge n (p * b) with h | h
        · exact h
        · exfalso
          have he : n = p * b := Nat.le_antisymm hnpb h
          exact hz (by rw [he]; exact Nat.mul_mod_left p b)
      have hlow : (p - 1) * b ≤ i := by
        have h1 : i / b * b ≤ i := Nat.div_mul_le_self i b
        rw [hr] at h1
        exact h1
      have hnb : n / b = p - 1 := by
        have hub : n < (p - 1 + 1) * b := by
          rw [Nat.sub_add_cancel hp]
          exact hnlt
        have hlb : (p - 1) * b ≤ n :=
          Nat.le_trans hlow (Nat.le_of_lt hi)
        exact Nat.div_eq_of_lt_le hlb hub
      have hi2 := Nat.div_add_mod i b
      have hn2 := Nat.div_add_mod n b
      rw [hr] at hi2
      rw [hnb] at hn2
      omega

theorem resize_local_vecs_length {α : Type} (p n r : Nat) (fill : α) :
    ((ArrayImpl.resize p n fill).local_vecs r).length =
      local_len p n (block_size p n) r := by
  simp [ArrayImpl.resize]

/-- Shared helper: on an array built by `resize`, the owner of an
in-range index is a valid rank and the local index is within the local
vector held there. -/
theorem resize_in_bounds {α : Type} (p n i : Nat)
    (fill : α) (hp : 1 ≤ p) (hn : 1 ≤ n) (hi : i < n) :
    (ArrayImpl.resize p n fill).owner i < p ∧
    (ArrayImpl.resize p n fill).local_index i <
      ((ArrayImpl.resize p n fill).local_vecs
        ((ArrayImpl.resize p n fill).owner i)).length := by
  have howner : (ArrayImpl.resize p n fill).owner i = i / block_size p n := by
    simp [ArrayImpl.resize, ArrayImpl.owner]
  have hlocal : (ArrayImpl.resize p n fill).local_index i =
      i % block_size p n := by
    simp [ArrayImpl.resize, ArrayImpl.local_index]
  rw [howner, hlocal, resize_local_vecs_length]
  exact ⟨owner_lt hp hn hi, local_index_lt hp hn hi⟩

/-! ### C8: owner and local index of an in-range index are in bounds -/

/-- C8: for every distributed array resized to global size `n ≥ 1` over
`p ≥ 1` ranks (block size `b = n / p` rounded up, every rank but the
last holding `b` elements, the last holding `n % b` elements, or `b`
when that remainder is zero) and every global index `i < n`:
`owner(i) = i / b` is a valid rank in `[0, p)`, and
`local_index(i) = i % b` is strictly below the length of the local
vector held at rank `owner(i)` — so the remote-side bounds assertion in
`async_set` / `async_visit` cannot fire for an in-range index. -/
theorem array_owner_local_index_in_bounds {α : Type} (p n i : Nat)
    (fill : α) (hp : 1 ≤ p) (hn : 1 ≤ n) (hi : i < n) :
    (ArrayImpl.resize p n fill).owner i < p ∧
    (ArrayImpl.resize p n fill).local_index i <
      ((ArrayImpl.resize p n fill).local_vecs
        ((ArrayImpl.resize p n fill).owner i)).length :=
  resize_in_bounds p n i fill hp hn hi

/-- Witness for C8 at `p = 2`, `n = 5`, `i = 4`. -/
theorem array_owner_local_index_in_bounds_witness :
    1 ≤ 2 ∧ 1 ≤ 5 ∧ 4 < 5 ∧
    ((ArrayImpl.resize 2 5 (0 : Nat)).owner 4 < 2 ∧
     (ArrayImpl.resize 2 5 (0 : Nat)).local_index 4 <
       ((ArrayImpl.resize 2 5 (0 : Nat)).local_vecs
         ((ArrayImpl.resize 2 5 (0 : Nat)).owner 4)).length) :=
  ⟨by decide, by decide, by decide,
    array_owner_local_index_in_bounds 2 5 4 (0 : Nat)
      (by decide) (by decide) (by decide)⟩

/-! ### C5: the range assertion in the array's async operations -/

/-- C5: for every distributed array of global size `n` (over `p ≥ 1`
ranks) and every call to `async_set`, `async_visit`,
`async_binary_op_update_value` or `async_unary_op_update_value` at index
`i`: if `i ≥ n` the call aborts via `ASSERT_RELEASE` (embedded as
`none`), and if `i < n` the assertion does not fire and the operation
proceeds (the result is `some`). -/
theorem array_async_ops_assert_in_range {α : Type} (p n i : Nat)
    (fill v : α) (vis : Nat → α → α) (bop : α → α → α) (uop : α → α)
    (hp : 1 ≤ p) :
    (n ≤ i →
      (ArrayImpl.resize p n fill).async_set i v = none ∧
      (ArrayImpl.resize p n fill).async_visit i vis = none ∧
      (ArrayImpl.resize p n fill).async_binary_op_update_value i v bop
        = none ∧
      (ArrayImpl.resize p n fill).async_unary_op_update_value i uop
        = none) ∧
    (i < n →
      ((ArrayImpl.resize p n fill).async_set i v).isSome ∧
      ((ArrayImpl.resize p n fill).async_visit i vis).isSome ∧
      ((ArrayImpl.resize p n fill).async_binary_op_update_value i v
        bop).isSome ∧
      ((ArrayImpl.resize p n fill).async_unary_op_update_value i
        uop).isSome) := by
  have hsize : (ArrayImpl.resize p n fill).global_size = n := by
    simp [ArrayImpl.resize]
  constructor
  · intro hni
    have hnot : ¬ i < (ArrayImpl.resize p n fill).global_size := by
      rw [hsize]; omega
    refine ⟨?_, ?_, ?_, ?_⟩
    · simp [ArrayImpl.async_set, hnot]
    · simp [ArrayImpl.async_visit, hnot]
    · simp [ArrayImpl.async_binary_op_update_value, hnot]
    · simp [ArrayImpl.async_unary_op_update_value, hnot]
  · intro hi
    have hn : 1 ≤ n := by omega
    have hlt : i < (ArrayImpl.resize p n fill).global_size := by
      rw [hsize]; exact hi
    have hbound := (resize_in_bounds p n i fill hp hn hi).2
    rw [ArrayImpl.local_index, ArrayImpl.owner] at hbound
    refine ⟨?_, ?_, ?_, ?_⟩
    · simp [ArrayImpl.async_set, ArrayImpl.local_index, ArrayImpl.owner,
        hlt, hbound]
    · simp [ArrayImpl.async_visit, ArrayImpl.local_index, ArrayImpl.owner,
        hlt, hbound]
    · simp [ArrayImpl.async_binary_op_update_value, ArrayImpl.async_visit,
        ArrayImpl.local_index, ArrayImpl.owner, hlt, hbound]
    · simp [ArrayImpl.async_unary_op_update_value, ArrayImpl.async_visit,
        ArrayImpl.local_index, ArrayImpl.owner, hlt, hbound]

/-- Witness for C5 at `p = 2`, `n = 5`: `i = 7` asserts, `i = 3`
proceeds. -/
theorem array_async_ops_assert_in_range_witness :
    1 ≤ 2 ∧
    ((ArrayImpl.resize 2 5 (0 : Nat)).async_set 7 9 = none ∧
     ((ArrayImpl.resize 2 5 (0 : Nat)).async_set 3 9).isSome) := by
  have h7 := array_async_ops_assert_in_range 2 5 7 (0 : Nat) 9
    (fun _i x => x + 1) (fun a b => a + b) (fun x => x) (by decide)
  have h3 := array_async_ops_assert_in_range 2 5 3 (0 : Nat) 9
    (fun _i x => x + 1) (fun a b => a + b) (fun x => x) (by decide)
  exact ⟨by decide, (h7.1 (by decide)).1, (h3.2 (by decide)).1⟩

/-! ### C9: hash partitioner determinism and range -/

/-- C9: for every hash value, `hash_partitioner::owner` is deterministic
(equal keys with equal hash state give equal results) and, for every
communicator size `p ≥ 1`, the Fibonacci-multiply-shift-then-mod
computation yields a valid rank in `[0, p)`. -/
theorem hash_partitioner_owner_deterministic_and_in_range
    (h1 h2 p : Nat) (hp : 1 ≤ p) :
    hash_partitioner_owner h1 p < p ∧
    (h1 = h2 → hash_partitioner_owner h1 p = hash_partitioner_owner h2 p) := by
  refine ⟨Nat.mod_lt _ hp, ?_⟩
  intro he
  rw [he]

/-- Witness for C9 at hash value `123456789` and `p = 7`. -/
theorem hash_partitioner_owner_witness :
    1 ≤ 7 ∧
    (hash_partitioner_owner 123456789 7 < 7 ∧
     (123456789 = 123456789 →
       hash_partitioner_owner 123456789 7 =
         hash_partitioner_owner 123456789 7)) :=
  ⟨by decide,
    hash_partitioner_owner_deterministic_and_in_range 123456789 123456789 7
      (by decide)⟩

/-! ### C10: the CSV parser's `for_all` calls -/

/-- C10: `csv_parser::for_all(fn)` invokes `fn` exactly once per input
line whose parsed CSV field vector is non-empty, in order, and never for
a line that parses to zero fields; the trailing second pass contributes
no additional invocations; when headers have been read, the header line
is excluded from the records passed to `fn`. -/
theorem csv_for_all_calls_eq (parse_csv_line : String → List String)
    (m_has_headers : Bool) (lines : List String) :
    csv_for_all parse_csv_line m_has_headers lines =
      ((if m_has_headers then lines.drop 1 else lines).map
        parse_csv_line).filter (fun vfields => vfields.length > 0) := by
  have hhandler : ∀ (L : List String),
      line_parser_for_all (handle_line_lambda parse_csv_line) L false =
        (L.map parse_csv_line).filter (fun vfields => vfields.length > 0) := by
    intro L
    induction L with
    | nil => rfl
    | cons x xs ih =>
      rw [line_parser_for_all] at ih ⊢
      simp only [if_neg (Bool.false_ne_true), List.map_cons, List.flatten_cons,
        List.filter_cons] at ih ⊢
      rw [handle_line_lambda, ih]
      by_cases hx : (parse_csv_line x).length > 0
      · rw [if_pos hx]
        simp [hx]
      · rw [if_neg hx]
        simp [hx]
  have hsecond : line_parser_for_all (fun _line => ([] : List (List String)))
      lines false = [] := by
    rw [line_parser_for_all]
    simp
  cases m_has_headers with
  | false =>
    rw [csv_for_all, if_neg (Bool.false_ne_true), hsecond, List.append_nil,
      hhandler, if_neg (Bool.false_ne_true)]
  | true =>
    rw [csv_for_all, if_pos rfl, hsecond, List.append_nil, if_pos rfl]
    rw [line_parser_for_all]
    simp only [if_pos rfl]
    have := hhandler (lines.drop 1)
    rw [line_parser_for_all, if_neg (Bool.false_ne_true)] at this
    exact this

/-! ### Communicator model: shared lemmas -/

theorem invSize_pos (i : Invocation) : 0 < invSize i := by
  cases i with
  | node d spawns => rw [invSize]; omega

theorem invListSize_append (xs ys : List Invocation) :
    invListSize (xs ++ ys) = invListSize xs + invListSize ys := by
  induction xs with
  | nil => simp [invListSize]
  | cons x xs ih =>
    simp only [List.cons_append, invListSize, List.append_eq, ih]
    omega

theorem invListDests_append (xs ys : List Invocation) :
    invListDests (xs ++ ys) = invListDests xs ++ invListDests ys := by
  induction xs with
  | nil => simp [invListDests]
  | cons x xs ih =>
    simp only [List.cons_append, invListDests, List.append_eq, ih,
      List.append_assoc]

theorem invListWF_append {p : Nat} {xs ys : List Invocation}
    (hx : invListWF p xs = true) (hy : invListWF p ys = true) :
    invListWF p (xs ++ ys) = true := by
  induction xs with
  | nil => simpa using hy
  | cons x xs ih =>
    rw [List.cons_append, invListWF]
    rw [invListWF, Bool.and_eq_true] at hx
    rw [Bool.and_eq_true]
    exact ⟨hx.1, ih hx.2⟩

theorem length_le_invListSize (xs : List Invocation) :
    xs.length ≤ invListSize xs := by
  induction xs with
  | nil => simp [invListSize]
  | cons x xs ih =>
    rw [List.length_cons, invListSize]
    have := invSize_pos x
    omega

theorem sum_bump {p : Nat} (f : Nat → Nat) {d : Nat} (k : Nat)
    (hd : d < p) :
    (∑ x ∈ Finset.range p, bump f d k x)
      = (∑ x ∈ Finset.range p, f x) + k := by
  have h1 : ∀ x, bump f d k x = f x + (if x = d then k else 0) := by
    intro x
    by_cases hx : x = d <;> simp [bump, hx]
  calc (∑ x ∈ Finset.range p, bump f d k x)
      = ∑ x ∈ Finset.range p, (f x + if x = d then k else 0) :=
        Finset.sum_congr rfl (fun x _ => h1 x)
    _ = (∑ x ∈ Finset.range p, f x)
          + ∑ x ∈ Finset.range p, (if x = d then k else 0) :=
        Finset.sum_add_distrib
    _ = (∑ x ∈ Finset.range p, f x) + k := by
        rw [Finset.sum_ite_eq' (Finset.range p) d (fun _ => k),
          if_pos (Finset.mem_range.mpr hd)]

/-- Joint characterization of the quiescence loop: starting from
in-flight list `pend` with all destinations valid, the loop empties the
in-flight list after dispatching every invocation in every spawn tree
exactly once (log equality), adding `invListSize pend` to the global
received sum and `invListSize pend - pend.length` to the global sent
sum. -/
theorem drain_props {p : Nat} :
    ∀ (N : Nat) (pend : List Invocation) (sc rc : Nat → Nat),
    invListSize pend ≤ N → invListWF p pend = true →
    ((∑ x ∈ Finset.range p, (drain pend sc rc).1 x) + pend.length
        = (∑ x ∈ Finset.range p, sc x) + invListSize pend) ∧
    ((∑ x ∈ Finset.range p, (drain pend sc rc).2.1 x)
        = (∑ x ∈ Finset.range p, rc x) + invListSize pend) ∧
    ((drain pend sc rc).2.2
        = (invListDests pend).map BarrierEvent.dispatched) := by
  intro N
  induction N with
  | zero =>
    intro pend sc rc hN hwf
    match pend with
    | [] => simp [drain, invListSize, invListDests]
    | i :: is =>
      exfalso
      rw [invListSize] at hN
      have := invSize_pos i
      omega
  | succ N ih =>
    intro pend sc rc hN hwf
    match pend with
    | [] => simp [drain, invListSize, invListDests]
    | .node d spawns :: rest =>
      rw [invListWF, Bool.and_eq_true, invWF, Bool.and_eq_true,
        decide_eq_true_eq] at hwf
      obtain ⟨⟨hd, hs⟩, hr⟩ := hwf
      have hsize : invListSize (.node d spawns :: rest)
          = 1 + invListSize spawns + invListSize rest := by
        rw [invListSize, invSize]
      have hN' : invListSize (spawns ++ rest) ≤ N := by
        rw [invListSize_append]
        omega
      have hwf' : invListWF p (spawns ++ rest) = true :=
        invListWF_append hs hr
      have hmain := ih (spawns ++ rest) (bump sc d spawns.length)
        (bump rc d 1) hN' hwf'
      rw [drain]
      dsimp only
      refine ⟨?_, ?_, ?_⟩
      · have h1 := hmain.1
        rw [sum_bump sc spawns.length hd, invListSize_append,
          List.length_append] at h1
        rw [List.length_cons, hsize]
        omega
      · have h2 := hmain.2.1
        rw [sum_bump rc 1 hd, invListSize_append] at h2
        rw [hsize]
        omega
      · have h3 := hmain.2.2
        rw [invListDests, invDests, List.cons_append, List.map_cons,
          ← invListDests_append, h3]

/-- The dispatch log of the quiescence loop alone (no validity needed):
every invocation in every in-flight spawn tree is dispatched exactly
once, in tree order. -/
theorem drain_log :
    ∀ (N : Nat) (pend : List Invocation) (sc rc : Nat → Nat),
    invListSize pend ≤ N →
    (drain pend sc rc).2.2
      = (invListDests pend).map BarrierEvent.dispatched := by
  intro N
  induction N with
  | zero =>
    intro pend sc rc hN
    match pend with
    | [] => simp [drain, invListDests]
    | i :: is =>
      exfalso
      rw [invListSize] at hN
      have := invSize_pos i
      omega
  | succ N ih =>
    intro pend sc rc hN
    match pend with
    | [] => simp [drain, invListDests]
    | .node d spawns :: rest =>
      have hN' : invListSize (spawns ++ rest) ≤ N := by
        rw [invListSize_append]
        rw [invListSize, invSize] at hN
        omega
      rw [drain]
      dsimp only
      rw [invListDests, invDests, List.cons_append, List.map_cons,
        ← invListDests_append,
        ih (spawns ++ rest) (bump sc d spawns.length) (bump rc d 1) hN']

/-- The pre-barrier phase appends each callback's sends to the in-flight
list and logs one `callbackRun` event per registered callback, in
registration order. -/
theorem runCallbacks_shape :
    ∀ (cbs : List (Nat × List Invocation)) (sc : Nat → Nat)
      (pend : List Invocation),
    ((runCallbacks cbs sc pend).2.1
        = pend ++ (cbs.map (fun cb => cb.2)).flatten) ∧
    ((runCallbacks cbs sc pend).2.2
        = cbs.map BarrierEvent.callbackRun) := by
  intro cbs
  induction cbs with
  | nil => intro sc pend; simp [runCallbacks]
  | cons cb rest ih =>
    intro sc pend
    obtain ⟨r, sends⟩ := cb
    rw [runCallbacks]
    dsimp only
    have h := ih (bump sc r sends.length) (pend ++ sends)
    refine ⟨?_, ?_⟩
    · rw [h.1, List.map_cons, List.flatten_cons, List.append_assoc]
    · rw [List.map_cons, h.2]

/-- The pre-barrier phase adds each callback's number of sends to the
sent counter at the rank the callback runs on. -/
theorem runCallbacks_sum {p : Nat} :
    ∀ (cbs : List (Nat × List Invocation)) (sc : Nat → Nat)
      (pend : List Invocation),
    (∀ cb ∈ cbs, cb.1 < p) →
    (∑ x ∈ Finset.range p, (runCallbacks cbs sc pend).1 x)
      = (∑ x ∈ Finset.range p, sc x)
          + (cbs.map (fun cb => cb.2.length)).sum := by
  intro cbs
  induction cbs with
  | nil => intro sc pend _; simp [runCallbacks]
  | cons cb rest ih =>
    intro sc pend hcb
    obtain ⟨r, sends⟩ := cb
    rw [runCallbacks]
    dsimp only
    have hr : r < p := hcb (r, sends) (List.mem_cons_self _ _)
    rw [ih (bump sc r sends.length) (pend ++ sends)
        (fun cb hm => hcb cb (List.mem_cons_of_mem _ hm)),
      sum_bump sc sends.length hr, List.map_cons, List.sum_cons]
    dsimp only
    omega

/-- Validity of the flattened sends of a callback list. -/
theorem invListWF_flatten {p : Nat} {cbs : List (Nat × List Invocation)}
    (h : ∀ cb ∈ cbs, invListWF p cb.2 = true) :
    invListWF p ((cbs.map (fun cb => cb.2)).flatten) = true := by
  induction cbs with
  | nil => rfl
  | cons cb rest ih =>
    rw [List.map_cons, List.flatten_cons]
    exact invListWF_append (h cb (List.mem_cons_self _ _))
      (ih (fun cb hm => h cb (List.mem_cons_of_mem _ hm)))

/-! ### C1: after `barrier`, global sent equals global received -/

/-- C1: after a call to the communicator's full `barrier()` returns, the
sum over all ranks of the cumulative remote-invocation sent counter
equals the sum over all ranks of the cumulative received counter.  The
hypotheses state the counting discipline that holds at entry: every
in-flight record was counted once at its sender (`hbal`), destinations
are valid ranks, and callbacks run on valid ranks. -/
theorem barrier_global_sent_eq_received (st : CommState)
    (_hp : 0 < st.comm_size)
    (hwf : invListWF st.comm_size st.pending = true)
    (hcb : ∀ cb ∈ st.m_pre_barrier_callbacks,
      cb.1 < st.comm_size ∧ invListWF st.comm_size cb.2 = true)
    (hbal : (∑ r ∈ Finset.range st.comm_size, st.m_send_count r)
        = (∑ r ∈ Finset.range st.comm_size, st.m_recv_count r)
            + st.pending.length) :
    (∑ r ∈ Finset.range st.comm_size, st.barrier.1.m_send_count r)
      = ∑ r ∈ Finset.range st.comm_size, st.barrier.1.m_recv_count r := by
  rw [CommState.barrier]
  dsimp only
  have hshape := runCallbacks_shape st.m_pre_barrier_callbacks
    st.m_send_count st.pending
  have hsum := runCallbacks_sum st.m_pre_barrier_callbacks
    st.m_send_count st.pending (fun cb hm => (hcb cb hm).1)
  set cbout := runCallbacks st.m_pre_barrier_callbacks st.m_send_count
    st.pending with hcbout
  have hwf' : invListWF st.comm_size cbout.2.1 = true := by
    rw [hshape.1]
    exact invListWF_append hwf (invListWF_flatten (fun cb hm => (hcb cb hm).2))
  have hlen : cbout.2.1.length = st.pending.length
      + (st.m_pre_barrier_callbacks.map (fun cb => cb.2.length)).sum := by
    rw [hshape.1, List.length_append, List.length_flatten, List.map_map]
    rfl
  have hd := drain_props (invListSize cbout.2.1) cbout.2.1 cbout.1
    st.m_recv_count (Nat.le_refl _) hwf'
  omega

/-- Witness state for C1: two ranks, one record in flight from rank 0 to
rank 1, no callbacks. -/
def c1_state : CommState :=
  { comm_size := 2
    m_send_count := fun r => if r = 0 then 1 else 0
    m_recv_count := fun _ => 0
    pending := [.node 1 []]
    m_pre_barrier_callbacks := [] }

/-- Witness for C1 at `c1_state`. -/
theorem barrier_global_sent_eq_received_witness :
    0 < c1_state.comm_size ∧
    invListWF c1_state.comm_size c1_state.pending = true ∧
    (∀ cb ∈ c1_state.m_pre_barrier_callbacks,
      cb.1 < c1_state.comm_size ∧
        invListWF c1_state.comm_size cb.2 = true) ∧
    ((∑ r ∈ Finset.range c1_state.comm_size, c1_state.m_send_count r)
        = (∑ r ∈ Finset.range c1_state.comm_size, c1_state.m_recv_count r)
            + c1_state.pending.length) ∧
    ((∑ r ∈ Finset.range c1_state.comm_size,
        c1_state.barrier.1.m_send_count r)
      = ∑ r ∈ Finset.range c1_state.comm_size,
          c1_state.barrier.1.m_recv_count r) := by
  refine ⟨by decide, by decide, ?_, by decide, ?_⟩
  · intro cb hm
    cases hm
  · exact barrier_global_sent_eq_received c1_state (by decide) (by decide)
      (by intro cb hm; cases hm) (by decide)

/-! ### C2: `barrier` returns only after everything is dispatched -/

/-- C2: `barrier()` returns only after every remote invocation initiated
before entry — and every invocation transitively spawned by those while
executing remotely — has been dispatched and completed at its final
destination rank: the in-flight list is empty on return, and the
dispatch log holds exactly the destinations of every node of every
spawn tree that was in flight at entry (plus those issued by pre-barrier
callbacks), each dispatched exactly once. -/
theorem barrier_dispatches_everything (st : CommState) :
    st.barrier.1.pending = [] ∧
    st.barrier.2.filterMap (fun e =>
        match e with
        | BarrierEvent.dispatched d => some d
        | BarrierEvent.callbackRun _ => none)
      = invListDests (st.pending
          ++ (st.m_pre_barrier_callbacks.map (fun cb => cb.2)).flatten) := by
  rw [CommState.barrier]
  dsimp only
  refine ⟨rfl, ?_⟩
  have hshape := runCallbacks_shape st.m_pre_barrier_callbacks
    st.m_send_count st.pending
  set cbout := runCallbacks st.m_pre_barrier_callbacks st.m_send_count
    st.pending with hcbout
  have hlog := drain_log (invListSize cbout.2.1) cbout.2.1 cbout.1
    st.m_recv_count (Nat.le_refl _)
  rw [List.filterMap_append, hshape.2, hlog, ← hshape.1]
  simp [List.filterMap_map, Function.comp_def]

/-! ### C4: pre-barrier callbacks run once, in order, first -/

/-- Prefix elements all satisfying the predicate drop away. -/
theorem dropWhile_append_of_all {α : Type} {P : α → Bool} :
    ∀ {A B : List α}, (∀ a ∈ A, P a = true) →
    (A ++ B).dropWhile P = B.dropWhile P := by
  intro A
  induction A with
  | nil => intro B _; rfl
  | cons a as ih =>
    intro B hA
    rw [List.cons_append, List.dropWhile_cons,
      hA a (List.mem_cons_self _ _)]
    simp only [if_pos rfl]
    exact ih (fun x hm => hA x (List.mem_cons_of_mem _ hm))

/-- C4: every callback registered with `register_pre_barrier_callback`
is invoked exactly once per `barrier()` call, in registration order,
and all callback invocations happen before quiescence detection begins
(no callback event follows the first non-callback event). -/
theorem barrier_callbacks_once_in_order_before_drain (st : CommState) :
    (st.barrier.2.filter (fun e => e.isCallback))
      = st.m_pre_barrier_callbacks.map BarrierEvent.callbackRun ∧
    (∀ e ∈ st.barrier.2.dropWhile (fun e => e.isCallback),
      e.isCallback = false) := by
  rw [CommState.barrier]
  dsimp only
  have hshape := runCallbacks_shape st.m_pre_barrier_callbacks
    st.m_send_count st.pending
  set cbout := runCallbacks st.m_pre_barrier_callbacks st.m_send_count
    st.pending with hcbout
  have hlog := drain_log (invListSize cbout.2.1) cbout.2.1 cbout.1
    st.m_recv_count (Nat.le_refl _)
  rw [hshape.2, hlog]
  constructor
  · simp [List.filter_append, List.filter_map, Function.comp_def,
      BarrierEvent.isCallback]
  · intro e hm
    rw [dropWhile_append_of_all (by
      intro a ha
      obtain ⟨cb, _, rfl⟩ := List.mem_map.mp ha
      rfl)] at hm
    have hsub : e ∈ (invListDests cbout.2.1).map BarrierEvent.dispatched :=
      (List.dropWhile_sublist _).subset hm
    obtain ⟨d, _, rfl⟩ := List.mem_map.mp hsub
    rfl

/-! ### C6: empty multicast is a no-op -/

/-- C6: `async_mcast` with an empty destination list performs no remote
invocation and leaves the communicator state — in particular the sent
and received counters of every rank — unchanged. -/
theorem async_mcast_empty_is_noop (st : CommState) (src : Nat)
    (mk_inv : Nat → Invocation) :
    st.async_mcast src [] mk_inv = st ∧
    (∀ r, (st.async_mcast src [] mk_inv).m_send_count r
            = st.m_send_count r ∧
          (st.async_mcast src [] mk_inv).m_recv_count r
            = st.m_recv_count r) ∧
    (st.async_mcast src [] mk_inv).pending = st.pending :=
  ⟨rfl, fun _ => ⟨rfl, rfl⟩, rfl⟩

/-! ### C7: lambda ids are 16-bit -/

/-- C7: every identifier the lambda registry assigns is a 16-bit
unsigned integer — for every registry state and every invocable, the id
stored and transmitted lies in `[0, 2^16)`; registering more invocables
than the 16-bit space holds is not rejected by a widened identifier
type (`m_lambda_map`'s id type is exactly `uint16_t`, so the stored
counter wraps modulo `2 ^ 16`). -/
theorem lambda_map_id_is_16bit (m : LambdaMap) (tok : Nat) :
    (m.id_of tok).2 < 2 ^ 16 := by
  rw [LambdaMap.id_of]
  cases h : findToken tok m.registered with
  | some i =>
    dsimp only
    exact Nat.mod_lt _ (by decide)
  | none =>
    dsimp only
    exact Nat.mod_lt _ (by decide)

/-! ### Serialization lemmas (shared helpers) -/

theorem encBytes_length (k n : Nat) : (encBytes k n).length = k := by
  induction k generalizing n with
  | zero => rfl
  | succ k ih => rw [encBytes, List.length_cons, ih]

theorem decBytes_encBytes (k : Nat) :
    ∀ (n : Nat) (rest : List Nat), n < 256 ^ k →
    decBytes k (encBytes k n ++ rest) = some (n, rest) := by
  induction k with
  | zero =>
    intro n rest h
    have hn : n = 0 := by
      rw [pow_zero] at h
      omega
    rw [hn]
    rfl
  | succ k ih =>
    intro n rest h
    have hdiv : n / 256 < 256 ^ k := by
      rw [Nat.div_lt_iff_lt_mul (by omega : 0 < 256)]
      calc n < 256 ^ (k + 1) := h
        _ = 256 ^ k * 256 := pow_succ 256 k
    rw [encBytes, List.cons_append, decBytes, ih (n / 256) rest hdiv]
    simp only [Option.map_some']
    rw [Nat.mod_add_div n 256]

theorem readRaw_append (cs rest : List Nat) :
    readRaw cs.length (cs ++ rest) = some (cs, rest) := by
  induction cs with
  | nil => rfl
  | cons c cs ih =>
    rw [List.length_cons, List.cons_append, readRaw, ih]
    rfl

theorem svSize_pos (v : SerialValue) : 0 < svSize v := by
  cases v <;> rw [svSize] <;> omega

theorem svSize_lt_pack_length (fuel : Nat) :
    (∀ v : SerialValue, svSize v ≤ fuel →
      svSize v < (pack v).length) ∧
    (∀ xs : List SerialValue, svListSize xs ≤ fuel →
      svListSize xs ≤ (packList xs).length) := by
  induction fuel with
  | zero =>
    constructor
    · intro v hsz
      have := svSize_pos v
      omega
    · intro xs hsz
      match xs with
      | [] => rw [svListSize]; omega
      | v :: vs =>
        exfalso
        rw [svListSize] at hsz
        have := svSize_pos v
        omega
  | succ fuel ih =>
    constructor
    · intro v hsz
      match v with
      | .sWord n =>
        rw [svSize, pack, List.length_cons, encBytes_length]
        omega
      | .sBool b => rw [svSize, pack]; simp
      | .sFloat n =>
        rw [svSize, pack, List.length_cons, encBytes_length]
        omega
      | .sChars cs =>
        rw [svSize, pack, List.length_cons, List.length_append,
          encBytes_length]
        omega
      | .sPair a b =>
        rw [svSize] at hsz ⊢
        have ha := ih.1 a (by have := svSize_pos b; omega)
        have hb := ih.1 b (by have := svSize_pos a; omega)
        rw [pack, List.length_cons, List.length_append]
        omega
      | .sSeq xs =>
        rw [svSize] at hsz ⊢
        have hxs := ih.2 xs (by omega)
        rw [pack, List.length_cons, List.length_append, encBytes_length]
        omega
    · intro xs hsz
      match xs with
      | [] => rw [svListSize]; omega
      | v :: vs =>
        rw [svListSize] at hsz ⊢
        have hv := ih.1 v (by omega)
        have hvs := ih.2 vs (by have := svSize_pos v; omega)
        rw [packList, List.length_append]
        omega

/-- One unpacking step per packed constructor suffices: unpacking with a
budget of at least `svSize v` inverts `pack`. -/
theorem unpackF_pack (fuel : Nat) :
    (∀ (v : SerialValue) (rest : List Nat), svWF v = true →
      svSize v ≤ fuel → unpackF fuel (pack v ++ rest) = some (v, rest)) ∧
    (∀ (xs : List SerialValue) (rest : List Nat), svListWF xs = true →
      svListSize xs ≤ fuel →
      unpackListF fuel xs.length (packList xs ++ rest) = some (xs, rest)) := by
  induction fuel with
  | zero =>
    constructor
    · intro v rest _ hsz
      have := svSize_pos v
      omega
    · intro xs rest _ hsz
      match xs with
      | [] => rfl
      | v :: vs =>
        exfalso
        rw [svListSize] at hsz
        have := svSize_pos v
        omega
  | succ fuel ih =>
    constructor
    · intro v rest hwf hsz
      match v with
      | .sWord n =>
        rw [svWF, decide_eq_true_eq] at hwf
        have hn : n < 256 ^ 8 := by
          have : (256 : Nat) ^ 8 = 2 ^ 64 := by norm_num
          omega
        rw [pack, List.cons_append, unpackF,
          decBytes_encBytes 8 n rest hn]
        rfl
      | .sBool b =>
        cases b <;> rw [pack] <;> rfl
      | .sFloat n =>
        rw [svWF, decide_eq_true_eq] at hwf
        have hn : n < 256 ^ 8 := by
          have : (256 : Nat) ^ 8 = 2 ^ 64 := by norm_num
          omega
        rw [pack, List.cons_append, unpackF,
          decBytes_encBytes 8 n rest hn]
        rfl
      | .sChars cs =>
        rw [svWF, Bool.and_eq_true, decide_eq_true_eq] at hwf
        have hn : cs.length < 256 ^ 8 := by
          have : (256 : Nat) ^ 8 = 2 ^ 64 := by norm_num
          omega
        rw [pack, List.cons_append, List.append_assoc, unpackF,
          decBytes_encBytes 8 cs.length (cs ++ rest) hn]
        dsimp only
        rw [readRaw_append]
        rfl
      | .sPair a b =>
        rw [svWF, Bool.and_eq_true] at hwf
        rw [svSize] at hsz
        have ha := ih.1 a (pack b ++ rest) hwf.1
          (by have := svSize_pos b; omega)
        have hb := ih.1 b rest hwf.2 (by have := svSize_pos a; omega)
        rw [pack, List.cons_append, List.append_assoc, unpackF, ha]
        dsimp only
        rw [hb]
      | .sSeq xs =>
        rw [svWF, Bool.and_eq_true, decide_eq_true_eq] at hwf
        rw [svSize] at hsz
        have hn : xs.length < 256 ^ 8 := by
          have : (256 : Nat) ^ 8 = 2 ^ 64 := by norm_num
          omega
        have hxs := ih.2 xs rest hwf.2 (by omega)
        rw [pack, List.cons_append, List.append_assoc, unpackF,
          decBytes_encBytes 8 xs.length (packList xs ++ rest) hn]
        dsimp only
        rw [hxs]
    · intro xs rest hwf hsz
      match xs with
      | [] => rfl
      | v :: vs =>
        rw [svListWF, Bool.and_eq_true] at hwf
        rw [svListSize] at hsz
        have hv := ih.1 v (packList vs ++ rest) hwf.1 (by omega)
        have hvs := ih.2 vs rest hwf.2 (by have := svSize_pos v; omega)
        rw [packList, List.length_cons, List.append_assoc, unpackListF,
          hv]
        dsimp only
        rw [hvs]

/-! ### C3: serialization round-trips every supported value -/

/-- C3: for every value `v` of a supported argument type (integers of
common widths, booleans, floating-point bit patterns, fixed-size
character arrays, variable-length strings, pairs/tuples/user-defined
structures, sequence and map-like containers), deserializing the
serialized form yields the value back: `unpack (pack v) = some (v, [])`.
The hypothesis `svWF v` states that `v` fits the wire format (scalars
at most 64 bits, lengths within `size_t`, bytes below 256). -/
theorem serialization_roundtrip (v : SerialValue) (hwf : svWF v = true) :
    unpack (pack v) = some (v, []) := by
  rw [unpack]
  have hfits : svSize v ≤ (pack v).length :=
    Nat.le_of_lt ((svSize_lt_pack_length (svSize v)).1 v (Nat.le_refl _))
  have h := (unpackF_pack (pack v).length).1 v [] hwf hfits
  rw [List.append_nil] at h
  exact h

/-- Witness value for C3: a pair of an integer and a heterogeneous-ish
container holding a boolean, a string, and a float bit pattern. -/
def c3_value : SerialValue :=
  .sPair (.sWord 300)
    (.sSeq [.sBool true, .sChars [104, 105], .sFloat 4614256656552045848])

/-- Witness for C3 at `c3_value`. -/
theorem serialization_roundtrip_witness :
    svWF c3_value = true ∧ unpack (pack c3_value) = some (c3_value, []) :=
  ⟨by decide, serialization_roundtrip c3_value (by decide)⟩

end YGM
